import Mathlib

/-!
Verification of the resource-cache subsystem and offline orchestration of the
`umarthedev` portfolio app (src/services/NetworkService.ts `CacheManager`,
src/services/StorageService.ts `StorageService`, src/app/portfolio.tsx).

The persistent key-value store (AsyncStorage) is modelled as an association
list from string keys to stored values; the manager's asynchronous methods
become pure state-passing functions with the current clock (`Date.now()`)
passed explicitly as an `Int` parameter in milliseconds.
-/

namespace Umarthedev

/-! ## JavaScript string primitives used by the source -/

/-- Tests whether `p` is a leading segment of `l` (character-list form of JS `String.startsWith`). -/
def hasPrefixCL : List Char → List Char → Bool
  | [], _ => true
  | _ :: _, [] => false
  | p :: ps, c :: cs => p == c && hasPrefixCL ps cs

/-- Tests whether `pat` occurs as a contiguous segment of `l` (JS `String.includes` on char lists). -/
def hasSubstr (pat : List Char) : List Char → Bool
  | [] => pat.isEmpty
  | c :: cs => hasPrefixCL pat (c :: cs) || hasSubstr pat cs

/-- JS `s.includes(pat)`. -/
def strIncludes (s pat : String) : Bool := hasSubstr pat.data s.data

/-- JS `s.startsWith(pre)`. -/
def jsStartsWith (s pre : String) : Bool := hasPrefixCL pre.data s.data

/-- UTF-16 code units of one Unicode scalar, as produced by JS `charCodeAt`. -/
def utf16Units (c : Char) : List Nat :=
  if c.toNat < 65536 then [c.toNat]
  else [55296 + (c.toNat - 65536) / 1024, 56320 + (c.toNat - 65536) % 1024]

/-- The sequence of JS `charCodeAt(i)` values of a string. -/
def jsCharCodes (s : String) : List Nat := (s.data.map utf16Units).flatten

/-- JS `x | 0` / `x & x`: wrap an integer to a signed 32-bit value. -/
def toInt32 (n : Int) : Int :=
  let m := n % 4294967296
  if m < 2147483648 then m else m - 4294967296

/-! ## Store model (AsyncStorage via StorageService) -/

/-- A cache entry exactly as built by `CacheManager.cacheResource`. -/
structure CacheEntry where
  url : String
  data : String
  timestamp : Int
  expiresAt : Int
  contentType : String
  size : Nat
  deriving DecidableEq

/-- One record of the cache index: `{url, size, timestamp}`. -/
structure IndexEntry where
  url : String
  size : Nat
  timestamp : Int
  deriving DecidableEq

/-- The persisted cache index `{totalSize, entries}`. -/
structure CacheIndex where
  totalSize : Int
  entries : List IndexEntry
  deriving DecidableEq

/-- A value stored in the key-value store: a cache entry, the cache index, or
unrelated data owned by other parts of the app (e.g. the first-time-user flag). -/
inductive StoreVal where
  | entryVal (e : CacheEntry)
  | indexVal (i : CacheIndex)
  | rawVal (s : String)
  deriving DecidableEq

/-- The shared persistent key-value store. -/
abbrev Store := List (String × StoreVal)

/-- Model of `AsyncStorage.setItem`: replace the value at `k`, or add the pair. -/
def setItem (k : String) (v : StoreVal) : Store → Store
  | [] => [(k, v)]
  | (k', v') :: rest => if k' = k then (k, v) :: rest else (k', v') :: setItem k v rest

/-- Model of `AsyncStorage.getItem`. -/
def getItem (k : String) : Store → Option StoreVal
  | [] => none
  | (k', v') :: rest => if k' = k then some v' else getItem k rest

/-- Model of `AsyncStorage.removeItem`. -/
def removeItem (k : String) (s : Store) : Store := s.filter (fun p => p.1 != k)

namespace StorageService

/-- Model of `StorageService.CACHE_PREFIX`. -/
def cachePref : String := "cache_"

/-- Model of `StorageService.setCacheData`: store under the prefixed key. -/
def setCacheData (k : String) (v : StoreVal) (s : Store) : Store :=
  setItem (cachePref ++ k) v s

/-- Model of `StorageService.getCacheData`. -/
def getCacheData (k : String) (s : Store) : Option StoreVal :=
  getItem (cachePref ++ k) s

/-- Model of `StorageService.removeCacheData`. -/
def removeCacheData (k : String) (s : Store) : Store :=
  removeItem (cachePref ++ k) s

/-- Model of `StorageService.clearAllCacheData`: list all keys, keep those that start
with the cache prefix, and bulk-remove them. -/
def clearAllCacheData (s : Store) : Store :=
  s.filter (fun p => !(jsStartsWith p.1 cachePref))

end StorageService

namespace CacheManager

/-- Model of `CacheManager.CACHE_INDEX_KEY`. -/
def CACHE_INDEX_KEY : String := "cache_index"

/-- Model of `CacheManager.MAX_CACHE_SIZE` (50 MiB). -/
def MAX_CACHE_SIZE : Int := 50 * 1024 * 1024

/-- Model of `CacheManager.DEFAULT_EXPIRATION` (1 hour in ms). -/
def DEFAULT_EXPIRATION : Int := 60 * 60 * 1000

/-- Model of `CacheManager.STATIC_RESOURCE_EXPIRATION` (24 hours in ms). -/
def STATIC_RESOURCE_EXPIRATION : Int := 24 * 60 * 60 * 1000

/-- Model of `CacheManager.hashUrl`: 31-based rolling hash over UTF-16 code units,
wrapped to a signed 32-bit integer at every step, then `Math.abs(...).toString()`. -/
def hashUrl (url : String) : String :=
  let h := (jsCharCodes url).foldl (fun h c => toInt32 (toInt32 (h * 32) - h + c)) 0
  toString h.natAbs

/-- Model of `CacheManager.getCacheKey`. -/
def getCacheKey (url : String) : String := "resource_" ++ hashUrl url

/-- Model of `CacheManager.getExpirationTime`. -/
def getExpirationTime (contentType : String) : Int :=
  if strIncludes contentType "css" || strIncludes contentType "javascript" ||
      strIncludes contentType "image/" then
    STATIC_RESOURCE_EXPIRATION
  else
    DEFAULT_EXPIRATION

/-- Model of `CacheManager.getCacheIndex`: the stored index, or `{totalSize: 0, entries: []}`. -/
def getCacheIndex (s : Store) : CacheIndex :=
  match StorageService.getCacheData CACHE_INDEX_KEY s with
  | some (.indexVal i) => i
  | _ => ⟨0, []⟩

/-- Reading an entry: `StorageService.getCacheData` at an entry key. -/
def getEntryData (k : String) (s : Store) : Option CacheEntry :=
  match StorageService.getCacheData k s with
  | some (.entryVal e) => some e
  | _ => none

/-- The `findIndex`/`splice` pattern of `updateCacheIndex`/`removeFromCacheIndex`:
detach the first record whose `url` matches, returning it and the remaining list. -/
def removeFirstRecord (url : String) : List IndexEntry → Option (IndexEntry × List IndexEntry)
  | [] => none
  | e :: rest =>
    if e.url = url then some (e, rest)
    else
      match removeFirstRecord url rest with
      | none => none
      | some (f, rest') => some (f, e :: rest')

/-- Model of `CacheManager.updateCacheIndex`: drop any prior record for `url`
(subtracting its size), append the new record, add its size, persist. -/
def updateCacheIndex (now : Int) (url : String) (size : Nat) (s : Store) : Store :=
  let index := getCacheIndex s
  let index1 : CacheIndex :=
    match removeFirstRecord url index.entries with
    | some (old, rest) => ⟨index.totalSize - old.size, rest⟩
    | none => index
  StorageService.setCacheData CACHE_INDEX_KEY
    (.indexVal ⟨index1.totalSize + size, index1.entries ++ [⟨url, size, now⟩]⟩) s

/-- Model of `CacheManager.removeFromCacheIndex`: if a record for `url` exists, splice it
out, subtract the *passed* size, persist; otherwise leave the store untouched. -/
def removeFromCacheIndex (url : String) (size : Nat) (s : Store) : Store :=
  let index := getCacheIndex s
  match removeFirstRecord url index.entries with
  | some (_, rest) =>
      StorageService.setCacheData CACHE_INDEX_KEY (.indexVal ⟨index.totalSize - size, rest⟩) s
  | none => s

/-- Stable insertion of a record into a timestamp-sorted list (helper for
modelling JS `Array.prototype.sort`, which is stable). -/
def insertByTs (e : IndexEntry) : List IndexEntry → List IndexEntry
  | [] => [e]
  | f :: rest => if e.timestamp < f.timestamp then e :: f :: rest else f :: insertByTs e rest

/-- Model of `entries.sort((a, b) => a.timestamp - b.timestamp)`: the stable
ascending-by-timestamp reordering. -/
def sortByTs (l : List IndexEntry) : List IndexEntry :=
  l.foldl (fun acc e => insertByTs e acc) []

/-- The `while` loop of `enforceCacheSizeLimit`: shift the oldest record and
delete its backing entry until the running total is within the cap or the
records run out; returns the remaining records, the final total and the store. -/
def evictLoop : List IndexEntry → Int → Store → List IndexEntry × Int × Store
  | [], total, s => ([], total, s)
  | e :: rest, total, s =>
    if total ≤ MAX_CACHE_SIZE then (e :: rest, total, s)
    else evictLoop rest (total - e.size) (StorageService.removeCacheData (getCacheKey e.url) s)

/-- Model of `CacheManager.enforceCacheSizeLimit`. -/
def enforceCacheSizeLimit (s : Store) : Store :=
  let index := getCacheIndex s
  if index.totalSize ≤ MAX_CACHE_SIZE then s
  else
    let r := evictLoop (sortByTs index.entries) index.totalSize s
    StorageService.setCacheData CACHE_INDEX_KEY (.indexVal ⟨r.2.1, r.1⟩) r.2.2

/-- Model of `CacheManager.cacheResource`: build the entry, store it, update the index,
then enforce the size limit. -/
def cacheResource (now : Int) (url dataStr contentType : String) (s : Store) : Store :=
  let entry : CacheEntry :=
    ⟨url, dataStr, now, now + getExpirationTime contentType, contentType, dataStr.length⟩
  let s1 := StorageService.setCacheData (getCacheKey url) (.entryVal entry) s
  let s2 := updateCacheIndex now url entry.size s1
  enforceCacheSizeLimit s2

/-- Model of `CacheManager.removeCachedResource`: read the entry; if present, delete it
and remove its index record using the entry's size. -/
def removeCachedResource (url : String) (s : Store) : Store :=
  match getEntryData (getCacheKey url) s with
  | none => s
  | some e =>
      removeFromCacheIndex url e.size (StorageService.removeCacheData (getCacheKey url) s)

/-- Model of `CacheManager.getCachedResource`: null if absent; lazily delete and return
null if `now > expiresAt`; otherwise the data. Returns result and new store. -/
def getCachedResource (now : Int) (url : String) (s : Store) : Option String × Store :=
  match getEntryData (getCacheKey url) s with
  | none => (none, s)
  | some e =>
      if now > e.expiresAt then (none, removeCachedResource url s)
      else (some e.data, s)

/-- Model of `CacheManager.clearCache`: clear the whole cache namespace, then (again)
remove the index key. -/
def clearCache (s : Store) : Store :=
  StorageService.removeCacheData CACHE_INDEX_KEY (StorageService.clearAllCacheData s)

/-- Model of `CacheManager.getCacheSize`. -/
def getCacheSize (s : Store) : Int := (getCacheIndex s).totalSize

/-- A JS number that is an integer or one of the infinities produced by
`Math.min()` / `Math.max()` on an empty argument list. -/
inductive JsNum where
  | num (n : Int)
  | posInf
  | negInf
  deriving DecidableEq

/-- Model of `Math.min(...xs)` over integer arguments. -/
def jsMin : List Int → JsNum
  | [] => .posInf
  | x :: xs => .num (xs.foldl min x)

/-- Model of `Math.max(...xs)` over integer arguments. -/
def jsMax : List Int → JsNum
  | [] => .negInf
  | x :: xs => .num (xs.foldl max x)

/-- The record returned by `CacheManager.getCacheStats`. -/
structure CacheStats where
  totalSize : Int
  entryCount : Nat
  oldestEntry : JsNum
  newestEntry : JsNum
  deriving DecidableEq

/-- Model of `CacheManager.getCacheStats`. -/
def getCacheStats (s : Store) : CacheStats :=
  let index := getCacheIndex s
  ⟨index.totalSize, index.entries.length,
    jsMin (index.entries.map (·.timestamp)),
    jsMax (index.entries.map (·.timestamp))⟩

end CacheManager

/-! ## Offline orchestration (src/app/portfolio.tsx, PortfolioScreen)

The component's hook state is modelled as a record; the WebView source is
abstracted to either the live portfolio URL or a data-URI built from cached
content (`encodeURIComponent` wrapping is irrelevant to the claims and kept
abstract). Cache reads performed through `CacheManager.getCachedResource` are
logged in `cacheReads` so side effects can be counted. -/

/-- Model of `PORTFOLIO_URL`. -/
def PORTFOLIO_URL : String := "https://umar.is-a.dev/"

/-- Model of `NetworkState` as delivered to listeners (`isInternetReachable` may be null). -/
structure NetworkStateM where
  isConnected : Bool
  isInternetReachable : Option Bool
  type : String
  deriving DecidableEq

/-- Model of `networkState.isConnected && networkState.isInternetReachable !== false`. -/
def onlineOf (ns : NetworkStateM) : Bool :=
  ns.isConnected && !(ns.isInternetReachable == some false)

/-- What the WebView is asked to display. -/
inductive WebSource where
  | live
  | cachedDoc (content : String)
  deriving DecidableEq

/-- The hook state of `PortfolioScreen` relevant to the offline flow, plus a
log of the URLs passed to `CacheManager.getCachedResource`. -/
structure OrchState where
  isOnline : Bool
  showOfflineMessage : Bool
  webViewSource : WebSource
  cacheReads : List String
  deriving DecidableEq

/-- Model of `handleOfflineLoad`: read the cached portfolio page; if present, point the
WebView at a data URI of it; in all cases show the offline message. -/
def handleOfflineLoad (now : Int) (st : OrchState) (s : Store) : OrchState × Store :=
  let r := CacheManager.getCachedResource now PORTFOLIO_URL s
  match r.1 with
  | some content =>
      ({ st with webViewSource := .cachedDoc content, showOfflineMessage := true,
                 cacheReads := st.cacheReads ++ [PORTFOLIO_URL] }, r.2)
  | none =>
      ({ st with showOfflineMessage := true,
                 cacheReads := st.cacheReads ++ [PORTFOLIO_URL] }, r.2)

/-- Model of `checkInitialConnectivity` (body of the network-monitoring effect): query
`NetworkService.isOnline()` — modelled by the ambient `envOnline` — store it,
and when offline fall back to the cache. -/
def checkInitialConnectivity (envOnline : Bool) (now : Int) (st : OrchState) (s : Store) :
    OrchState × Store :=
  let st1 := { st with isOnline := envOnline }
  if envOnline then (st1, s) else handleOfflineLoad now st1 s

/-- The network-listener callback in the connectivity effect: recompute
`online`, remember `wasOnline`, store the new flag, and on a transition set or
clear the offline message (coming back online also resets the WebView source). -/
def listenerStep (ns : NetworkStateM) (st : OrchState) (s : Store) : OrchState × Store :=
  let online := onlineOf ns
  let wasOnline := st.isOnline
  let st1 := { st with isOnline := online }
  if !online && wasOnline then ({ st1 with showOfflineMessage := true }, s)
  else if online && !wasOnline then
    ({ st1 with showOfflineMessage := false, webViewSource := .live }, s)
  else (st1, s)

/-- One connectivity callback together with React's re-render processing: the
effect has dependency array `[isOnline, handleOfflineLoad]` and
`handleOfflineLoad` has a stable identity (`useCallback` with `[]`), so the
effect body — `checkInitialConnectivity` plus re-subscription — runs again
exactly when the callback changed `isOnline`; a state update to the same value
bails out and re-runs nothing. -/
def networkEvent (envOnline : Bool) (now : Int) (ns : NetworkStateM)
    (st : OrchState) (s : Store) : OrchState × Store :=
  let r := listenerStep ns st s
  if r.1.isOnline = st.isOnline then r
  else checkInitialConnectivity envOnline now r.1 r.2

/-! ## Operation sequences over the cache (for the size invariant) -/

/-- One public cache operation, with its clock reading. -/
inductive COp where
  | cacheR (now : Int) (url dataStr contentType : String)
  | getR (now : Int) (url : String)
  | removeR (url : String)
  | clearR
  deriving DecidableEq

/-- Run one operation against the store. -/
def runOp (op : COp) (s : Store) : Store :=
  match op with
  | .cacheR now u d ct => CacheManager.cacheResource now u d ct s
  | .getR now u => (CacheManager.getCachedResource now u s).2
  | .removeR u => CacheManager.removeCachedResource u s
  | .clearR => CacheManager.clearCache s

/-- Run a sequence of operations left to right. -/
def runOps (ops : List COp) (s : Store) : Store := ops.foldl (fun s op => runOp op s) s

/-- The URL an operation touches, if any. -/
def opUrl : COp → Option String
  | .cacheR _ u _ _ => some u
  | .getR _ u => some u
  | .removeR u => some u
  | .clearR => none

/-- All URLs touched by a sequence of operations. -/
def urlsOf (ops : List COp) : List String := ops.filterMap opUrl

/-! ## Specification-side predicates -/

/-- Sum of the `size` fields of a list of index records. -/
def sumSizes (l : List IndexEntry) : Int := (l.map (fun e => (e.size : Int))).sum

/-- The index's denormalized total matches its records. -/
def consistentIndex (i : CacheIndex) : Prop := i.totalSize = sumSizes i.entries

/-- Well-formedness of a cache state relative to a clock `now` and a URL `u`:
the index total is consistent, no record was written in the future, record
URLs are pairwise distinct, and no *other* recorded URL collides with `u`'s
storage key. All four hold in every state the manager itself produces under a
monotone clock and collision-free URLs. -/
def IndexWF (now : Int) (u : String) (s : Store) : Prop :=
  consistentIndex (CacheManager.getCacheIndex s) ∧
  (∀ e ∈ (CacheManager.getCacheIndex s).entries, e.timestamp ≤ now) ∧
  ((CacheManager.getCacheIndex s).entries.map (·.url)).Nodup ∧
  (∀ e ∈ (CacheManager.getCacheIndex s).entries,
    e.url ≠ u → CacheManager.getCacheKey e.url ≠ CacheManager.getCacheKey u)

/-- Timestamp order on index records. -/
def tsLE (a b : IndexEntry) : Prop := a.timestamp ≤ b.timestamp

/-- The number of records the `while` loop of `enforceCacheSizeLimit` evicts
from the (sorted) record list when starting from running total `total`. -/
def evictCount (total : Int) : List IndexEntry → Nat
  | [] => 0
  | e :: rest =>
    if total ≤ CacheManager.MAX_CACHE_SIZE then 0 else evictCount (total - e.size) rest + 1

/-- Delete the backing entries of all records in `l` from the store. -/
def removeKeysStore (l : List IndexEntry) (s : Store) : Store :=
  l.foldl (fun s e => StorageService.removeCacheData (CacheManager.getCacheKey e.url) s) s

/-- The storage-key function is injective on the URLs in `U` (rules out hash
collisions among the URLs a run touches). -/
def KeyInj (U : List String) : Prop :=
  ∀ u ∈ U, ∀ v ∈ U, CacheManager.getCacheKey u = CacheManager.getCacheKey v → u = v

/-- Invariant tying the persisted index to the stored entries: the total is
the sum of the record sizes, record URLs are distinct and drawn from `U`,
every record is backed by a stored entry of matching URL and size, and every
stored entry sits under its own URL's key with a URL from `U`. -/
def CacheWF (U : List String) (s : Store) : Prop :=
  consistentIndex (CacheManager.getCacheIndex s) ∧
  ((CacheManager.getCacheIndex s).entries.map (·.url)).Nodup ∧
  (∀ r ∈ (CacheManager.getCacheIndex s).entries, r.url ∈ U) ∧
  (∀ r ∈ (CacheManager.getCacheIndex s).entries,
    ∃ e, CacheManager.getEntryData (CacheManager.getCacheKey r.url) s = some e ∧
      e.url = r.url ∧ e.size = r.size) ∧
  (∀ k e, CacheManager.getEntryData k s = some e →
    e.url ∈ U ∧ k = CacheManager.getCacheKey e.url)

/-! ## Store lemmas -/

theorem getItem_setItem_self (k : String) (v : StoreVal) (s : Store) :
    getItem k (setItem k v s) = some v := by
  induction s with
  | nil => simp [setItem, getItem]
  | cons p rest ih =>
      by_cases h : p.1 = k
      · simp [setItem, getItem, h]
      · simp [setItem, getItem, h, ih]

theorem getItem_setItem_ne (k k' : String) (v : StoreVal) (s : Store) (h : k' ≠ k) :
    getItem k (setItem k' v s) = getItem k s := by
  induction s with
  | nil => simp [setItem, getItem, h]
  | cons p rest ih =>
      by_cases h1 : p.1 = k'
      · simp [setItem, getItem, h1, h, Ne.symm h]
      · by_cases h2 : p.1 = k
        · simp [setItem, getItem, h1, h2, Ne.symm h]
        · simp [setItem, getItem, h1, h2, ih]

theorem getItem_removeItem_self (k : String) (s : Store) :
    getItem k (removeItem k s) = none := by
  induction s with
  | nil => simp [removeItem, getItem]
  | cons p rest ih =>
      simp only [removeItem] at ih ⊢
      by_cases h : p.1 = k
      · simpa [List.filter_cons, h] using ih
      · simpa [List.filter_cons, h, getItem] using ih

theorem getItem_removeItem_ne (k k' : String) (s : Store) (h : k' ≠ k) :
    getItem k (removeItem k' s) = getItem k s := by
  induction s with
  | nil => simp [removeItem, getItem]
  | cons p rest ih =>
      simp only [removeItem] at ih ⊢
      by_cases h1 : p.1 = k'
      · simp [List.filter_cons, getItem, h1, h, Ne.symm h, ih]
      · by_cases h2 : p.1 = k
        · simp [List.filter_cons, getItem, h1, h2, Ne.symm h, ih]
        · simp [List.filter_cons, getItem, h1, h2, ih]

theorem getItem_filter_of_key (P : String × StoreVal → Bool) (k : String) (s : Store)
    (h : ∀ v, P (k, v) = true) :
    getItem k (s.filter P) = getItem k s := by
  induction s with
  | nil => simp [getItem]
  | cons p rest ih =>
      by_cases h1 : p.1 = k
      · have : P p = true := by
          have := h p.2
          rwa [show (k, p.2) = p by rw [← h1]] at this
        simp [List.filter, this, getItem, h1]
      · by_cases h2 : P p
        · simp [List.filter, h2, getItem, h1, ih]
        · simp [List.filter, h2, getItem, h1, ih]

theorem getItem_filter_of_dropped (P : String × StoreVal → Bool) (k : String) (s : Store)
    (h : ∀ v, P (k, v) = false) :
    getItem k (s.filter P) = none := by
  induction s with
  | nil => simp [getItem]
  | cons p rest ih =>
      by_cases h1 : p.1 = k
      · have : P p = false := by
          have := h p.2
          rwa [show (k, p.2) = p by rw [← h1]] at this
        simp [List.filter, this, ih]
      · by_cases h2 : P p
        · simp [List.filter, h2, getItem, h1, ih]
        · simp [List.filter, h2, ih]

/-! ## Key facts -/

theorem entryKey_ne_indexKey (u : String) :
    StorageService.cachePref ++ CacheManager.getCacheKey u ≠
      StorageService.cachePref ++ CacheManager.CACHE_INDEX_KEY := by
  intro h
  have h2 := congrArg String.data h
  rw [String.data_append, String.data_append] at h2
  have h2' := List.append_cancel_left h2
  have h3 : ("resource_".data ++ (CacheManager.hashUrl u).data)[0]? = ("cache_index".data)[0]? := by
    have : (CacheManager.getCacheKey u).data = "resource_".data ++ (CacheManager.hashUrl u).data := by
      simp [CacheManager.getCacheKey, String.data_append]
    rw [← this, h2']
    rfl
  rw [List.getElem?_append_left (by decide)] at h3
  exact absurd h3 (by decide)

/-! ## Index and record lemmas -/

theorem getCacheIndex_setIndex (i : CacheIndex) (s : Store) :
    CacheManager.getCacheIndex
      (StorageService.setCacheData CacheManager.CACHE_INDEX_KEY (.indexVal i) s) = i := by
  simp [CacheManager.getCacheIndex, StorageService.getCacheData, StorageService.setCacheData,
    getItem_setItem_self]

theorem getCacheIndex_setEntry (u : String) (v : StoreVal) (s : Store) :
    CacheManager.getCacheIndex
      (StorageService.setCacheData (CacheManager.getCacheKey u) v s) =
      CacheManager.getCacheIndex s := by
  simp [CacheManager.getCacheIndex, StorageService.getCacheData, StorageService.setCacheData,
    getItem_setItem_ne _ _ _ _ (entryKey_ne_indexKey u)]

theorem getCacheIndex_removeEntry (u : String) (s : Store) :
    CacheManager.getCacheIndex
      (StorageService.removeCacheData (CacheManager.getCacheKey u) s) =
      CacheManager.getCacheIndex s := by
  simp [CacheManager.getCacheIndex, StorageService.getCacheData, StorageService.removeCacheData,
    getItem_removeItem_ne _ _ _ (entryKey_ne_indexKey u)]

theorem getEntryData_setIndex (u : String) (i : CacheIndex) (s : Store) :
    CacheManager.getEntryData (CacheManager.getCacheKey u)
      (StorageService.setCacheData CacheManager.CACHE_INDEX_KEY (.indexVal i) s) =
      CacheManager.getEntryData (CacheManager.getCacheKey u) s := by
  simp [CacheManager.getEntryData, StorageService.getCacheData, StorageService.setCacheData,
    getItem_setItem_ne _ _ _ _ (fun h => entryKey_ne_indexKey u h.symm)]

theorem removeFirstRecord_perm (u : String) (l : List IndexEntry) (r : IndexEntry)
    (rest : List IndexEntry) (h : CacheManager.removeFirstRecord u l = some (r, rest)) :
    l.Perm (r :: rest) ∧ r.url = u := by
  induction l generalizing rest with
  | nil => simp [CacheManager.removeFirstRecord] at h
  | cons e t ih =>
      by_cases he : e.url = u
      · simp only [CacheManager.removeFirstRecord, if_pos he, Option.some.injEq,
          Prod.mk.injEq] at h
        obtain ⟨rfl, rfl⟩ := h
        exact ⟨List.Perm.refl _, he⟩
      · simp only [CacheManager.removeFirstRecord, if_neg he] at h
        cases h2 : CacheManager.removeFirstRecord u t with
        | none => rw [h2] at h; simp at h
        | some pr =>
            rw [h2] at h
            obtain ⟨f, rest'⟩ := pr
            simp only [Option.some.injEq, Prod.mk.injEq] at h
            obtain ⟨rfl, rfl⟩ := h
            obtain ⟨hp, hu⟩ := ih rest' h2
            exact ⟨(hp.cons e).trans (List.Perm.swap f e rest'), hu⟩

theorem removeFirstRecord_none (u : String) (l : List IndexEntry)
    (h : CacheManager.removeFirstRecord u l = none) :
    ∀ e ∈ l, e.url ≠ u := by
  induction l with
  | nil => simp
  | cons e t ih =>
      by_cases he : e.url = u
      · simp [CacheManager.removeFirstRecord, if_pos he] at h
      · simp only [CacheManager.removeFirstRecord, if_neg he] at h
        cases h2 : CacheManager.removeFirstRecord u t with
        | none =>
            intro f hf
            rcases List.mem_cons.mp hf with rfl | hf'
            · exact he
            · exact ih h2 f hf'
        | some pr => rw [h2] at h; obtain ⟨a, b⟩ := pr; simp at h

/-! ## Size-sum lemmas -/

theorem sumSizes_nil : sumSizes [] = 0 := rfl

theorem sumSizes_cons (e : IndexEntry) (l : List IndexEntry) :
    sumSizes (e :: l) = e.size + sumSizes l := by
  simp [sumSizes]

theorem sumSizes_append (a b : List IndexEntry) :
    sumSizes (a ++ b) = sumSizes a + sumSizes b := by
  simp [sumSizes]

theorem sumSizes_perm (a b : List IndexEntry) (h : a.Perm b) : sumSizes a = sumSizes b :=
  List.Perm.sum_eq (h.map _)

theorem sumSizes_nonneg (l : List IndexEntry) : 0 ≤ sumSizes l := by
  induction l with
  | nil => simp [sumSizes]
  | cons e t ih => rw [sumSizes_cons]; positivity

/-! ## Sorting lemmas -/

theorem insertByTs_perm (e : IndexEntry) (l : List IndexEntry) :
    (CacheManager.insertByTs e l).Perm (e :: l) := by
  induction l with
  | nil => simp [CacheManager.insertByTs]
  | cons f rest ih =>
      by_cases h : e.timestamp < f.timestamp
      · simp [CacheManager.insertByTs, if_pos h]
      · simp only [CacheManager.insertByTs, if_neg h]
        exact (ih.cons f).trans (List.Perm.swap e f rest)

theorem insertByTs_mem (x e : IndexEntry) (l : List IndexEntry)
    (h : x ∈ CacheManager.insertByTs e l) : x = e ∨ x ∈ l := by
  have := (insertByTs_perm e l).mem_iff.mp h
  simpa using this

theorem insertByTs_pairwise (e : IndexEntry) (l : List IndexEntry)
    (h : l.Pairwise tsLE) : (CacheManager.insertByTs e l).Pairwise tsLE := by
  induction l with
  | nil => simp [CacheManager.insertByTs, tsLE]
  | cons f rest ih =>
      rcases List.pairwise_cons.mp h with ⟨hf, hrest⟩
      by_cases hc : e.timestamp < f.timestamp
      · simp only [CacheManager.insertByTs, if_pos hc]
        refine List.pairwise_cons.mpr ⟨?_, h⟩
        intro x hx
        rcases List.mem_cons.mp hx with rfl | hx'
        · exact le_of_lt hc
        · exact le_trans (le_of_lt hc) (hf x hx')
      · simp only [CacheManager.insertByTs, if_neg hc]
        refine List.pairwise_cons.mpr ⟨?_, ih hrest⟩
        intro x hx
        rcases insertByTs_mem x e rest hx with rfl | hx'
        · exact le_of_not_lt hc
        · exact hf x hx'

theorem sortAux_perm (l acc : List IndexEntry) :
    (l.foldl (fun acc e => CacheManager.insertByTs e acc) acc).Perm (acc ++ l) := by
  induction l generalizing acc with
  | nil => simp
  | cons e rest ih =>
      simp only [List.foldl_cons]
      refine (ih (CacheManager.insertByTs e acc)).trans ?_
      refine (List.Perm.append_right rest (insertByTs_perm e acc)).trans ?_
      exact List.perm_middle.symm

theorem sortByTs_perm (l : List IndexEntry) : (CacheManager.sortByTs l).Perm l := by
  simpa using sortAux_perm l []

theorem sortAux_pairwise (l acc : List IndexEntry) (h : acc.Pairwise tsLE) :
    (l.foldl (fun acc e => CacheManager.insertByTs e acc) acc).Pairwise tsLE := by
  induction l generalizing acc with
  | nil => simpa using h
  | cons e rest ih => exact ih _ (insertByTs_pairwise e acc h)

theorem sortByTs_pairwise (l : List IndexEntry) :
    (CacheManager.sortByTs l).Pairwise tsLE :=
  sortAux_pairwise l [] (by simp)

theorem insertByTs_append_last (e : IndexEntry) (l : List IndexEntry)
    (h : ∀ f ∈ l, f.timestamp ≤ e.timestamp) :
    CacheManager.insertByTs e l = l ++ [e] := by
  induction l with
  | nil => simp [CacheManager.insertByTs]
  | cons f rest ih =>
      have hf : ¬ e.timestamp < f.timestamp := not_lt.mpr (h f (by simp))
      simp only [CacheManager.insertByTs, if_neg hf, List.cons_append, List.cons.injEq, true_and]
      exact ih (fun g hg => h g (by simp [hg]))

theorem sortByTs_append_singleton (l : List IndexEntry) (e : IndexEntry) :
    CacheManager.sortByTs (l ++ [e]) = CacheManager.insertByTs e (CacheManager.sortByTs l) := by
  simp [CacheManager.sortByTs, List.foldl_append]

/-! ## Eviction-loop characterization -/

theorem evictLoop_eq (l : List IndexEntry) (total : Int) (s : Store) :
    CacheManager.evictLoop l total s =
      (l.drop (evictCount total l),
       total - sumSizes (l.take (evictCount total l)),
       removeKeysStore (l.take (evictCount total l)) s) := by
  induction l generalizing total s with
  | nil => simp [CacheManager.evictLoop, evictCount, removeKeysStore, sumSizes]
  | cons e rest ih =>
      by_cases h : total ≤ CacheManager.MAX_CACHE_SIZE
      · simp [CacheManager.evictLoop, evictCount, if_pos h, removeKeysStore, sumSizes]
      · simp only [CacheManager.evictLoop, evictCount, if_neg h, List.drop_succ_cons,
          List.take_succ_cons, sumSizes_cons, removeKeysStore, List.foldl_cons]
        rw [ih (total - e.size) _]
        refine congrArg _ (congrArg (fun x => (x, _)) ?_)
        ring

theorem evictCount_le_length (total : Int) (l : List IndexEntry) :
    evictCount total l ≤ l.length := by
  induction l generalizing total with
  | nil => simp [evictCount]
  | cons e rest ih =>
      by_cases h : total ≤ CacheManager.MAX_CACHE_SIZE
      · simp [evictCount, if_pos h]
      · simp only [evictCount, if_neg h, List.length_cons]
        exact Nat.succ_le_succ (ih _)

theorem evictCount_stop (total : Int) (l : List IndexEntry) :
    total - sumSizes (l.take (evictCount total l)) ≤ CacheManager.MAX_CACHE_SIZE ∨
      evictCount total l = l.length := by
  induction l generalizing total with
  | nil => simp [evictCount]
  | cons e rest ih =>
      by_cases h : total ≤ CacheManager.MAX_CACHE_SIZE
      · left; simpa [evictCount, if_pos h, sumSizes] using h
      · rcases ih (total - e.size) with h1 | h1
        · left
          simp only [evictCount, if_neg h, List.take_succ_cons, sumSizes_cons]
          calc total - (↑e.size + sumSizes (rest.take (evictCount (total - ↑e.size) rest)))
              = total - ↑e.size - sumSizes (rest.take (evictCount (total - ↑e.size) rest)) := by
                ring
            _ ≤ CacheManager.MAX_CACHE_SIZE := h1
        · right
          simp [evictCount, if_neg h, h1]

theorem evictCount_min (total : Int) (l : List IndexEntry) :
    ∀ j < evictCount total l,
      CacheManager.MAX_CACHE_SIZE < total - sumSizes (l.take j) := by
  induction l generalizing total with
  | nil => simp [evictCount]
  | cons e rest ih =>
      by_cases h : total ≤ CacheManager.MAX_CACHE_SIZE
      · simp [evictCount, if_pos h]
      · intro j hj
        cases j with
        | zero => simpa [sumSizes] using lt_of_not_le h
        | succ j' =>
            simp only [evictCount, if_neg h] at hj
            have hj' : j' < evictCount (total - e.size) rest := Nat.lt_of_succ_lt_succ hj
            have := ih (total - e.size) j' hj'
            simp only [List.take_succ_cons, sumSizes_cons]
            calc CacheManager.MAX_CACHE_SIZE
                < total - ↑e.size - sumSizes (rest.take j') := this
              _ = total - (↑e.size + sumSizes (rest.take j')) := by ring

theorem getItem_removeKeysStore_none (k : String) (l : List IndexEntry) (s : Store)
    (h : getItem k s = none) : getItem k (removeKeysStore l s) = none := by
  induction l generalizing s with
  | nil => simpa [removeKeysStore] using h
  | cons e rest ih =>
      simp only [removeKeysStore, List.foldl_cons]
      apply ih
      by_cases hk : StorageService.cachePref ++ CacheManager.getCacheKey e.url = k
      · rw [StorageService.removeCacheData, hk]
        exact getItem_removeItem_self k s
      · rw [StorageService.removeCacheData, getItem_removeItem_ne _ _ _ hk]
        exact h

theorem getItem_removeKeysStore_mem (e : IndexEntry) (l : List IndexEntry) (s : Store)
    (h : e ∈ l) :
    getItem (StorageService.cachePref ++ CacheManager.getCacheKey e.url)
      (removeKeysStore l s) = none := by
  induction l generalizing s with
  | nil => simp at h
  | cons f rest ih =>
      rcases List.mem_cons.mp h with rfl | h'
      · simp only [removeKeysStore, List.foldl_cons]
        apply getItem_removeKeysStore_none
        exact getItem_removeItem_self _ _
      · simp only [removeKeysStore, List.foldl_cons]
        exact ih _ h'

theorem removeKeysStore_cons (e : IndexEntry) (l : List IndexEntry) (s : Store) :
    removeKeysStore (e :: l) s =
      removeKeysStore l (StorageService.removeCacheData (CacheManager.getCacheKey e.url) s) :=
  rfl

theorem getItem_removeKeysStore_ne (k : String) (l : List IndexEntry) (s : Store)
    (h : ∀ e ∈ l, StorageService.cachePref ++ CacheManager.getCacheKey e.url ≠ k) :
    getItem k (removeKeysStore l s) = getItem k s := by
  induction l generalizing s with
  | nil => simp [removeKeysStore]
  | cons e rest ih =>
      rw [removeKeysStore_cons]
      rw [ih _ (fun f hf => h f (by simp [hf]))]
      exact getItem_removeItem_ne _ _ _ (h e (by simp))

theorem strAppend_left_cancel {p a b : String} (h : p ++ a = p ++ b) : a = b := by
  have h2 := congrArg String.data h
  rw [String.data_append, String.data_append] at h2
  exact String.ext (List.append_cancel_left h2)

theorem getExpirationTime_pos (ct : String) : 0 < CacheManager.getExpirationTime ct := by
  rw [CacheManager.getExpirationTime]
  split <;> norm_num [CacheManager.STATIC_RESOURCE_EXPIRATION, CacheManager.DEFAULT_EXPIRATION]

theorem getEntryData_setEntry_self (u : String) (e : CacheEntry) (s : Store) :
    CacheManager.getEntryData (CacheManager.getCacheKey u)
      (StorageService.setCacheData (CacheManager.getCacheKey u) (.entryVal e) s) = some e := by
  simp [CacheManager.getEntryData, StorageService.getCacheData, StorageService.setCacheData,
    getItem_setItem_self]

/-! ## `updateCacheIndex` and `enforceCacheSizeLimit` behaviour -/

theorem updateCacheIndex_eq (now : Int) (u : String) (sz : Nat) (s : Store) :
    ∃ i1 : CacheIndex,
      CacheManager.updateCacheIndex now u sz s =
        StorageService.setCacheData CacheManager.CACHE_INDEX_KEY
          (.indexVal ⟨i1.totalSize + sz, i1.entries ++ [⟨u, sz, now⟩]⟩) s ∧
      (consistentIndex (CacheManager.getCacheIndex s) → consistentIndex i1) ∧
      (∀ e ∈ i1.entries, e ∈ (CacheManager.getCacheIndex s).entries) ∧
      (((CacheManager.getCacheIndex s).entries.map (·.url)).Nodup →
        ∀ e ∈ i1.entries, e.url ≠ u) ∧
      (((CacheManager.getCacheIndex s).entries.map (·.url)).Nodup →
        (i1.entries.map (·.url)).Nodup) := by
  cases h : CacheManager.removeFirstRecord u (CacheManager.getCacheIndex s).entries with
  | none =>
      refine ⟨CacheManager.getCacheIndex s, ?_, fun hc => hc, fun e he => he,
        fun _ e he => removeFirstRecord_none u _ h e he, fun hn => hn⟩
      simp [CacheManager.updateCacheIndex, h]
  | some pr =>
      obtain ⟨r, rest⟩ := pr
      obtain ⟨hp, hu⟩ := removeFirstRecord_perm u _ r rest h
      refine ⟨⟨(CacheManager.getCacheIndex s).totalSize - r.size, rest⟩, ?_, ?_, ?_, ?_, ?_⟩
      · simp [CacheManager.updateCacheIndex, h]
      · intro hc
        have hsum := sumSizes_perm _ _ hp
        rw [sumSizes_cons] at hsum
        simp only [consistentIndex] at hc ⊢
        simp only [hc, hsum]
        ring
      · intro e he
        exact hp.mem_iff.mpr (by simp [he])
      · intro hnd e he
        have hnd2 : ((r :: rest).map (·.url)).Nodup := (hp.map (·.url)).nodup_iff.mp hnd
        simp only [List.map_cons, List.nodup_cons] at hnd2
        intro hequ
        exact hnd2.1 (hu ▸ hequ ▸ List.mem_map_of_mem (·.url) he)
      · intro hnd
        have hnd2 : ((r :: rest).map (·.url)).Nodup := (hp.map (·.url)).nodup_iff.mp hnd
        simp only [List.map_cons, List.nodup_cons] at hnd2
        exact hnd2.2

theorem consistent_updateCacheIndex (now : Int) (u : String) (sz : Nat) (s : Store)
    (hc : consistentIndex (CacheManager.getCacheIndex s)) :
    consistentIndex (CacheManager.getCacheIndex (CacheManager.updateCacheIndex now u sz s)) := by
  obtain ⟨i1, heq, hcons, -, -, -⟩ := updateCacheIndex_eq now u sz s
  rw [heq, getCacheIndex_setIndex]
  have h1 := hcons hc
  simp only [consistentIndex] at h1 ⊢
  rw [sumSizes_append, h1, sumSizes_cons, sumSizes_nil]
  ring

theorem enforce_of_le (s : Store)
    (h : (CacheManager.getCacheIndex s).totalSize ≤ CacheManager.MAX_CACHE_SIZE) :
    CacheManager.enforceCacheSizeLimit s = s := by
  simp [CacheManager.enforceCacheSizeLimit, if_pos h]

theorem enforce_of_gt (s : Store)
    (h : CacheManager.MAX_CACHE_SIZE < (CacheManager.getCacheIndex s).totalSize) :
    CacheManager.enforceCacheSizeLimit s =
      StorageService.setCacheData CacheManager.CACHE_INDEX_KEY
        (.indexVal
          ⟨(CacheManager.getCacheIndex s).totalSize -
              sumSizes ((CacheManager.sortByTs (CacheManager.getCacheIndex s).entries).take
                (evictCount (CacheManager.getCacheIndex s).totalSize
                  (CacheManager.sortByTs (CacheManager.getCacheIndex s).entries))),
            (CacheManager.sortByTs (CacheManager.getCacheIndex s).entries).drop
              (evictCount (CacheManager.getCacheIndex s).totalSize
                (CacheManager.sortByTs (CacheManager.getCacheIndex s).entries))⟩)
        (removeKeysStore
          ((CacheManager.sortByTs (CacheManager.getCacheIndex s).entries).take
            (evictCount (CacheManager.getCacheIndex s).totalSize
              (CacheManager.sortByTs (CacheManager.getCacheIndex s).entries))) s) := by
  rw [CacheManager.enforceCacheSizeLimit]
  rw [if_neg (not_le.mpr h)]
  rw [evictLoop_eq]

theorem getCacheSize_enforce_le (s : Store)
    (hc : consistentIndex (CacheManager.getCacheIndex s)) :
    CacheManager.getCacheSize (CacheManager.enforceCacheSizeLimit s) ≤
      CacheManager.MAX_CACHE_SIZE := by
  by_cases h : (CacheManager.getCacheIndex s).totalSize ≤ CacheManager.MAX_CACHE_SIZE
  · rw [enforce_of_le s h]; exact h
  · rw [CacheManager.getCacheSize, enforce_of_gt s (not_le.mp h), getCacheIndex_setIndex]
    rcases evictCount_stop (CacheManager.getCacheIndex s).totalSize
        (CacheManager.sortByTs (CacheManager.getCacheIndex s).entries) with h1 | h1
    · exact h1
    · rw [h1, List.take_length]
      rw [sumSizes_perm _ _ (sortByTs_perm _), ← hc]
      simp [CacheManager.MAX_CACHE_SIZE]

/-- Core lemma behind C1/C4: in a well-formed state, a `cacheResource` call
whose data fits under the ceiling leaves exactly the freshly built entry
retrievable under the URL's storage key. -/
theorem cacheResource_entry_survives (now : Int) (u d ct : String) (s : Store)
    (hwf : IndexWF now u s) (hlen : (d.length : Int) ≤ CacheManager.MAX_CACHE_SIZE) :
    CacheManager.getEntryData (CacheManager.getCacheKey u)
      (CacheManager.cacheResource now u d ct s) =
      some ⟨u, d, now, now + CacheManager.getExpirationTime ct, ct, d.length⟩ := by
  obtain ⟨hc, hts, hnd, hkey⟩ := hwf
  have hres : CacheManager.cacheResource now u d ct s =
      CacheManager.enforceCacheSizeLimit
        (CacheManager.updateCacheIndex now u d.length
          (StorageService.setCacheData (CacheManager.getCacheKey u)
            (.entryVal ⟨u, d, now, now + CacheManager.getExpirationTime ct, ct, d.length⟩) s)) :=
    rfl
  rw [hres]
  have hIdx1 : CacheManager.getCacheIndex
      (StorageService.setCacheData (CacheManager.getCacheKey u)
        (.entryVal ⟨u, d, now, now + CacheManager.getExpirationTime ct, ct, d.length⟩) s) =
      CacheManager.getCacheIndex s := getCacheIndex_setEntry u _ s
  obtain ⟨i1, hupd, hconsf, hsub, hnotu, -⟩ :=
    updateCacheIndex_eq now u d.length
      (StorageService.setCacheData (CacheManager.getCacheKey u)
        (.entryVal ⟨u, d, now, now + CacheManager.getExpirationTime ct, ct, d.length⟩) s)
  rw [hIdx1] at hconsf hsub hnotu
  rw [hupd]
  have hcons2 : (i1.totalSize + (d.length : Int)) =
      sumSizes (i1.entries ++ [⟨u, d.length, now⟩]) := by
    have h1 := hconsf hc
    simp only [consistentIndex] at h1
    rw [sumSizes_append, ← h1, sumSizes_cons, sumSizes_nil]
    ring
  have hI2 : CacheManager.getCacheIndex
      (StorageService.setCacheData CacheManager.CACHE_INDEX_KEY
        (.indexVal ⟨i1.totalSize + ↑d.length, i1.entries ++ [⟨u, d.length, now⟩]⟩)
        (StorageService.setCacheData (CacheManager.getCacheKey u)
          (.entryVal ⟨u, d, now, now + CacheManager.getExpirationTime ct, ct, d.length⟩) s)) =
      ⟨i1.totalSize + ↑d.length, i1.entries ++ [⟨u, d.length, now⟩]⟩ :=
    getCacheIndex_setIndex _ _
  have hE2 : CacheManager.getEntryData (CacheManager.getCacheKey u)
      (StorageService.setCacheData CacheManager.CACHE_INDEX_KEY
        (.indexVal ⟨i1.totalSize + ↑d.length, i1.entries ++ [⟨u, d.length, now⟩]⟩)
        (StorageService.setCacheData (CacheManager.getCacheKey u)
          (.entryVal ⟨u, d, now, now + CacheManager.getExpirationTime ct, ct, d.length⟩) s)) =
      some ⟨u, d, now, now + CacheManager.getExpirationTime ct, ct, d.length⟩ := by
    rw [getEntryData_setIndex]
    exact getEntryData_setEntry_self u _ _
  by_cases hB : i1.totalSize + (d.length : Int) ≤ CacheManager.MAX_CACHE_SIZE
  · rw [enforce_of_le _ (by rw [hI2]; exact hB)]
    exact hE2
  · have hgt : CacheManager.MAX_CACHE_SIZE <
        (CacheManager.getCacheIndex
          (StorageService.setCacheData CacheManager.CACHE_INDEX_KEY
            (.indexVal ⟨i1.totalSize + ↑d.length, i1.entries ++ [⟨u, d.length, now⟩]⟩)
            (StorageService.setCacheData (CacheManager.getCacheKey u)
              (.entryVal ⟨u, d, now, now + CacheManager.getExpirationTime ct, ct, d.length⟩)
              s))).totalSize := by
      rw [hI2]; exact lt_of_not_le hB
    rw [enforce_of_gt _ hgt]
    rw [hI2]
    -- the sorted index puts the fresh record (timestamp `now`) last
    have hsorted : CacheManager.sortByTs (i1.entries ++ [⟨u, d.length, now⟩]) =
        CacheManager.sortByTs i1.entries ++ [⟨u, d.length, now⟩] := by
      rw [sortByTs_append_singleton]
      refine insertByTs_append_last _ _ ?_
      intro f hf
      exact hts f (hsub f ((sortByTs_perm i1.entries).mem_iff.mp hf))
    rw [hsorted]
    -- eviction never reaches the fresh record
    have hkle : evictCount (i1.totalSize + ↑d.length)
        (CacheManager.sortByTs i1.entries ++ [⟨u, d.length, now⟩]) ≤
        (CacheManager.sortByTs i1.entries).length := by
      by_contra hgtk
      have hj := evictCount_min (i1.totalSize + ↑d.length)
        (CacheManager.sortByTs i1.entries ++ [⟨u, d.length, now⟩])
        (CacheManager.sortByTs i1.entries).length (lt_of_not_le hgtk)
      rw [List.take_left] at hj
      have hsl : sumSizes (CacheManager.sortByTs i1.entries) = sumSizes i1.entries :=
        sumSizes_perm _ _ (sortByTs_perm _)
      have htot : i1.totalSize + (d.length : Int) = sumSizes i1.entries + d.length := by
        have h1 := hconsf hc
        simp only [consistentIndex] at h1
        rw [h1]
      rw [hsl, htot] at hj
      have : sumSizes i1.entries + (d.length : Int) - sumSizes i1.entries = d.length := by ring
      rw [this] at hj
      exact absurd hlen (not_le.mpr hj)
    have htake : (CacheManager.sortByTs i1.entries ++ [(⟨u, d.length, now⟩ : IndexEntry)]).take
        (evictCount (i1.totalSize + (d.length : Int))
          (CacheManager.sortByTs i1.entries ++ [(⟨u, d.length, now⟩ : IndexEntry)])) =
        (CacheManager.sortByTs i1.entries).take
          (evictCount (i1.totalSize + (d.length : Int))
            (CacheManager.sortByTs i1.entries ++ [(⟨u, d.length, now⟩ : IndexEntry)])) :=
      List.take_append_of_le_length hkle
    rw [htake]
    -- evicted keys differ from the fresh entry's key
    have hne : ∀ e ∈ (CacheManager.sortByTs i1.entries).take
        (evictCount (i1.totalSize + (d.length : Int))
          (CacheManager.sortByTs i1.entries ++ [(⟨u, d.length, now⟩ : IndexEntry)])),
        StorageService.cachePref ++ CacheManager.getCacheKey e.url ≠
          StorageService.cachePref ++ CacheManager.getCacheKey u := by
      intro e he
      have he1 : e ∈ i1.entries :=
        (sortByTs_perm i1.entries).mem_iff.mp (List.take_subset _ _ he)
      have heu : e.url ≠ u := hnotu hnd e he1
      have hks : CacheManager.getCacheKey e.url ≠ CacheManager.getCacheKey u :=
        hkey e (hsub e he1) heu
      exact fun hh => hks (strAppend_left_cancel hh)
    simp only [CacheManager.getEntryData, StorageService.getCacheData] at hE2 ⊢
    rw [StorageService.setCacheData,
      getItem_setItem_ne _ _ _ _ (fun hh => entryKey_ne_indexKey u hh.symm),
      getItem_removeKeysStore_ne _ _ _ hne]
    exact hE2

/-- From an empty store, caching a document strictly larger than the ceiling
makes the size-limit pass evict the entry that was just written. -/
theorem cacheResource_nil_too_big (now : Int) (u d ct : String)
    (h : CacheManager.MAX_CACHE_SIZE < (d.length : Int)) :
    (CacheManager.getCachedResource now u (CacheManager.cacheResource now u d ct [])).1 =
      none := by
  have hres : CacheManager.cacheResource now u d ct [] =
      CacheManager.enforceCacheSizeLimit
        (CacheManager.updateCacheIndex now u d.length
          (StorageService.setCacheData (CacheManager.getCacheKey u)
            (.entryVal ⟨u, d, now, now + CacheManager.getExpirationTime ct, ct, d.length⟩)
            [])) :=
    rfl
  have hIdx1 : CacheManager.getCacheIndex
      (StorageService.setCacheData (CacheManager.getCacheKey u)
        (.entryVal ⟨u, d, now, now + CacheManager.getExpirationTime ct, ct, d.length⟩) []) =
      ⟨0, []⟩ := by
    rw [getCacheIndex_setEntry]; rfl
  have hupd : CacheManager.updateCacheIndex now u d.length
      (StorageService.setCacheData (CacheManager.getCacheKey u)
        (.entryVal ⟨u, d, now, now + CacheManager.getExpirationTime ct, ct, d.length⟩) []) =
      StorageService.setCacheData CacheManager.CACHE_INDEX_KEY
        (.indexVal ⟨(d.length : Int), [⟨u, d.length, now⟩]⟩)
        (StorageService.setCacheData (CacheManager.getCacheKey u)
          (.entryVal ⟨u, d, now, now + CacheManager.getExpirationTime ct, ct, d.length⟩)
          []) := by
    simp [CacheManager.updateCacheIndex, hIdx1, CacheManager.removeFirstRecord]
  rw [hres, hupd]
  have hI2 := getCacheIndex_setIndex
    ⟨(d.length : Int), [(⟨u, d.length, now⟩ : IndexEntry)]⟩
    (StorageService.setCacheData (CacheManager.getCacheKey u)
      (.entryVal ⟨u, d, now, now + CacheManager.getExpirationTime ct, ct, d.length⟩) [])
  rw [enforce_of_gt _ (by rw [hI2]; exact h), hI2]
  have hev : evictCount (d.length : Int) [(⟨u, d.length, now⟩ : IndexEntry)] = 1 := by
    simp [evictCount, not_le.mpr h]
  have hsort : CacheManager.sortByTs [(⟨u, d.length, now⟩ : IndexEntry)] =
      [⟨u, d.length, now⟩] := rfl
  simp only [CacheIndex.totalSize, CacheIndex.entries, hsort, hev]
  have hnone : CacheManager.getEntryData (CacheManager.getCacheKey u)
      (StorageService.setCacheData CacheManager.CACHE_INDEX_KEY
        (.indexVal ⟨(d.length : Int) - sumSizes [(⟨u, d.length, now⟩ : IndexEntry)], []⟩)
        (removeKeysStore [(⟨u, d.length, now⟩ : IndexEntry)]
          (StorageService.setCacheData CacheManager.CACHE_INDEX_KEY
            (.indexVal ⟨(d.length : Int), [⟨u, d.length, now⟩]⟩)
            (StorageService.setCacheData (CacheManager.getCacheKey u)
              (.entryVal ⟨u, d, now, now + CacheManager.getExpirationTime ct, ct, d.length⟩)
              [])))) = none := by
    simp only [CacheManager.getEntryData, StorageService.getCacheData]
    rw [StorageService.setCacheData,
      getItem_setItem_ne _ _ _ _ (fun hh => entryKey_ne_indexKey u hh.symm)]
    rw [getItem_removeKeysStore_mem ⟨u, d.length, now⟩ _ _ (by simp)]
  simp [CacheManager.getCachedResource, hnone]

/-- C1 (amended): in a well-formed cache state, immediately after
`cacheResource(u, d, t)` with no clock advance, `getCachedResource(u)`
returns `d` — provided `d` fits under the 50 MiB ceiling. -/
theorem cache_then_get_same_tick (now : Int) (u d ct : String) (s : Store)
    (hwf : IndexWF now u s) (hlen : (d.length : Int) ≤ CacheManager.MAX_CACHE_SIZE) :
    (CacheManager.getCachedResource now u (CacheManager.cacheResource now u d ct s)).1 =
      some d := by
  have h := cacheResource_entry_survives now u d ct s hwf hlen
  simp only [CacheManager.getCachedResource, h]
  have hxp : ¬ now > now + CacheManager.getExpirationTime ct := by
    have := getExpirationTime_pos ct
    simp only [gt_iff_lt, not_lt]
    linarith
  rw [if_neg hxp]

/-- C1 counterexample: from the empty cache, caching a 50 MiB + 1 byte
document and reading it back with no clock advance yields `null`, not the
document — the size-limit pass evicts the entry written by the same call. -/
theorem cache_then_get_same_tick_counterexample :
    (CacheManager.getCachedResource 0 "u"
      (CacheManager.cacheResource 0 "u" (String.mk (List.replicate 52428801 'A'))
        "text/html" [])).1 = none := by
  apply cacheResource_nil_too_big
  rw [String.length_mk, List.length_replicate]
  norm_num [CacheManager.MAX_CACHE_SIZE]

/-- Witness for C1 (amended) at a concrete input. -/
theorem cache_then_get_same_tick_witness :
    (CacheManager.getCachedResource 0 "u"
      (CacheManager.cacheResource 0 "u" "hello" "text/html" [])).1 = some "hello" :=
  cache_then_get_same_tick 0 "u" "hello" "text/html" []
    (by refine ⟨rfl, ?_, ?_, ?_⟩ <;> simp [CacheManager.getCacheIndex,
      StorageService.getCacheData, getItem])
    (by decide)

/-- The empty store is a well-formed cache state for any clock and URL. -/
theorem IndexWF_nil (now : Int) (u : String) : IndexWF now u [] := by
  refine ⟨rfl, ?_, ?_, ?_⟩ <;>
    simp [CacheManager.getCacheIndex, StorageService.getCacheData, getItem]

set_option maxRecDepth 400000 in
/-- C4: an entry created by `cacheResource(url, data, contentType)` at clock
`now` has `expiresAt = now + 24 h` exactly when the content type contains
"css", "javascript" or "image/", and `now + 1 h` otherwise; concretely,
caching an HTML and a CSS entry at time 0 and reading at 1 h + 1 ms makes the
HTML entry unretrievable while the CSS entry is still returned. -/
theorem expiration_policy (now : Int) (u d ct : String)
    (hlen : (d.length : Int) ≤ CacheManager.MAX_CACHE_SIZE) :
    ((strIncludes ct "css" || strIncludes ct "javascript" || strIncludes ct "image/") = true →
      (CacheManager.getEntryData (CacheManager.getCacheKey u)
        (CacheManager.cacheResource now u d ct [])).map (·.expiresAt) =
        some (now + 24 * 60 * 60 * 1000)) ∧
    ((strIncludes ct "css" || strIncludes ct "javascript" || strIncludes ct "image/") = false →
      (CacheManager.getEntryData (CacheManager.getCacheKey u)
        (CacheManager.cacheResource now u d ct [])).map (·.expiresAt) =
        some (now + 60 * 60 * 1000)) ∧
    (CacheManager.getCachedResource 3600001 "https://x/a"
      (CacheManager.cacheResource 0 "https://x/b" "BBBBBBBBBB" "text/css"
        (CacheManager.cacheResource 0 "https://x/a" "AAAAAAAAAA" "text/html" []))).1 =
      none ∧
    (CacheManager.getCachedResource 3600001 "https://x/b"
      (CacheManager.cacheResource 0 "https://x/b" "BBBBBBBBBB" "text/css"
        (CacheManager.cacheResource 0 "https://x/a" "AAAAAAAAAA" "text/html" []))).1 =
      some "BBBBBBBBBB" := by
  have h1 := cacheResource_entry_survives now u d ct [] (IndexWF_nil now u) hlen
  refine ⟨?_, ?_, by decide, by decide⟩
  · intro hcond
    rw [h1]
    simp [CacheManager.getExpirationTime, hcond, CacheManager.STATIC_RESOURCE_EXPIRATION]
  · intro hcond
    rw [h1]
    simp [CacheManager.getExpirationTime, hcond, CacheManager.DEFAULT_EXPIRATION]

/-- Witness for C4 at `contentType = "text/css"`. -/
theorem expiration_policy_witness :
    (CacheManager.getEntryData (CacheManager.getCacheKey "u")
      (CacheManager.cacheResource 0 "u" "x" "text/css" [])).map (·.expiresAt) =
      some ((0 : Int) + 24 * 60 * 60 * 1000) :=
  (expiration_policy 0 "u" "x" "text/css" (by decide)).1 (by decide)

/-- C2: after a `cacheResource` call on a size-consistent state the reported
cache size is at most the 50 MiB ceiling; the size-limit pass leaves a
within-limit store untouched, and on an over-limit store it evicts a prefix of
the timestamp-sorted index — oldest-written first, deleting each evicted
entry and its index record and decrementing `totalSize` by its size — and
stops exactly when the running total is within the ceiling or no records
remain. -/
theorem cache_size_limit (now : Int) (u d ct : String) (s t : Store)
    (hc : consistentIndex (CacheManager.getCacheIndex s)) :
    CacheManager.getCacheSize (CacheManager.cacheResource now u d ct s) ≤
      CacheManager.MAX_CACHE_SIZE ∧
    ((CacheManager.getCacheIndex t).totalSize ≤ CacheManager.MAX_CACHE_SIZE →
      CacheManager.enforceCacheSizeLimit t = t) ∧
    (CacheManager.MAX_CACHE_SIZE < (CacheManager.getCacheIndex t).totalSize →
      ∃ k ≤ (CacheManager.sortByTs (CacheManager.getCacheIndex t).entries).length,
        CacheManager.getCacheIndex (CacheManager.enforceCacheSizeLimit t) =
          ⟨(CacheManager.getCacheIndex t).totalSize -
              sumSizes ((CacheManager.sortByTs (CacheManager.getCacheIndex t).entries).take k),
            (CacheManager.sortByTs (CacheManager.getCacheIndex t).entries).drop k⟩ ∧
        (∀ e ∈ (CacheManager.sortByTs (CacheManager.getCacheIndex t).entries).take k,
          StorageService.getCacheData (CacheManager.getCacheKey e.url)
            (CacheManager.enforceCacheSizeLimit t) = none) ∧
        (∀ e ∈ (CacheManager.sortByTs (CacheManager.getCacheIndex t).entries).take k,
          ∀ f ∈ (CacheManager.sortByTs (CacheManager.getCacheIndex t).entries).drop k,
            e.timestamp ≤ f.timestamp) ∧
        ((CacheManager.getCacheIndex t).totalSize -
            sumSizes ((CacheManager.sortByTs (CacheManager.getCacheIndex t).entries).take k) ≤
              CacheManager.MAX_CACHE_SIZE ∨
          k = (CacheManager.sortByTs (CacheManager.getCacheIndex t).entries).length) ∧
        (∀ j < k, CacheManager.MAX_CACHE_SIZE <
          (CacheManager.getCacheIndex t).totalSize -
            sumSizes ((CacheManager.sortByTs (CacheManager.getCacheIndex t).entries).take j))) := by
  refine ⟨?_, fun h => enforce_of_le t h, fun hgt => ?_⟩
  · have hc1 : consistentIndex (CacheManager.getCacheIndex
        (StorageService.setCacheData (CacheManager.getCacheKey u)
          (.entryVal ⟨u, d, now, now + CacheManager.getExpirationTime ct, ct, d.length⟩) s)) := by
      rw [getCacheIndex_setEntry]; exact hc
    have hc2 := consistent_updateCacheIndex now u d.length _ hc1
    exact getCacheSize_enforce_le _ hc2
  · refine ⟨evictCount (CacheManager.getCacheIndex t).totalSize
        (CacheManager.sortByTs (CacheManager.getCacheIndex t).entries),
      evictCount_le_length _ _, ?_, ?_, ?_, evictCount_stop _ _, evictCount_min _ _⟩
    · rw [enforce_of_gt t hgt, getCacheIndex_setIndex]
    · intro e he
      rw [enforce_of_gt t hgt]
      simp only [StorageService.getCacheData]
      rw [StorageService.setCacheData,
        getItem_setItem_ne _ _ _ _ (fun hh => entryKey_ne_indexKey e.url hh.symm)]
      exact getItem_removeKeysStore_mem e _ _ he
    · have hp := sortByTs_pairwise (CacheManager.getCacheIndex t).entries
      rw [← List.take_append_drop
        (evictCount (CacheManager.getCacheIndex t).totalSize
          (CacheManager.sortByTs (CacheManager.getCacheIndex t).entries))
        (CacheManager.sortByTs (CacheManager.getCacheIndex t).entries)] at hp
      exact fun e he f hf => (List.pairwise_append.mp hp).2.2 e he f hf

/-- Witness for C2 at a concrete input. -/
theorem cache_size_limit_witness :
    CacheManager.getCacheSize (CacheManager.cacheResource 0 "u" "hello" "text/html" []) ≤
      CacheManager.MAX_CACHE_SIZE :=
  (cache_size_limit 0 "u" "hello" "text/html" [] [] rfl).1

/-- C5: if a stored entry is expired (`now > expiresAt`), reading it returns
null and, as a side effect, deletes the entry and its index record, so the
stats afterwards no longer count it in `entryCount` or `totalSize`. -/
theorem lazy_expiry_on_read (now : Int) (u : String) (s : Store) (e : CacheEntry)
    (r : IndexEntry) (rest : List IndexEntry)
    (he : CacheManager.getEntryData (CacheManager.getCacheKey u) s = some e)
    (hexp : now > e.expiresAt)
    (hr : CacheManager.removeFirstRecord u (CacheManager.getCacheIndex s).entries =
      some (r, rest))
    (hrest : ∀ f ∈ rest, f.url ≠ u) :
    (CacheManager.getCachedResource now u s).1 = none ∧
    CacheManager.getEntryData (CacheManager.getCacheKey u)
      (CacheManager.getCachedResource now u s).2 = none ∧
    (CacheManager.getCacheStats (CacheManager.getCachedResource now u s).2).entryCount =
      (CacheManager.getCacheStats s).entryCount - 1 ∧
    (CacheManager.getCacheStats (CacheManager.getCachedResource now u s).2).totalSize =
      (CacheManager.getCacheStats s).totalSize - e.size ∧
    ∀ f ∈ (CacheManager.getCacheIndex (CacheManager.getCachedResource now u s).2).entries,
      f.url ≠ u := by
  have hrun : CacheManager.getCachedResource now u s =
      (none, CacheManager.removeCachedResource u s) := by
    simp only [CacheManager.getCachedResource, he]
    rw [if_pos hexp]
  have hrem : CacheManager.removeCachedResource u s =
      CacheManager.removeFromCacheIndex u e.size
        (StorageService.removeCacheData (CacheManager.getCacheKey u) s) := by
    simp only [CacheManager.removeCachedResource, he]
  have hidx : CacheManager.getCacheIndex
      (StorageService.removeCacheData (CacheManager.getCacheKey u) s) =
      CacheManager.getCacheIndex s := getCacheIndex_removeEntry u s
  have hfin : CacheManager.removeFromCacheIndex u e.size
      (StorageService.removeCacheData (CacheManager.getCacheKey u) s) =
      StorageService.setCacheData CacheManager.CACHE_INDEX_KEY
        (.indexVal ⟨(CacheManager.getCacheIndex s).totalSize - e.size, rest⟩)
        (StorageService.removeCacheData (CacheManager.getCacheKey u) s) := by
    simp only [CacheManager.removeFromCacheIndex, hidx, hr]
  have hperm := (removeFirstRecord_perm u _ r rest hr).1
  have hlen : (CacheManager.getCacheIndex s).entries.length = rest.length + 1 := by
    simpa using hperm.length_eq
  refine ⟨by rw [hrun], ?_, ?_, ?_, ?_⟩
  · rw [hrun, hrem, hfin]
    simp only [CacheManager.getEntryData, StorageService.getCacheData,
      StorageService.setCacheData, StorageService.removeCacheData]
    rw [getItem_setItem_ne _ _ _ _ (fun hh => entryKey_ne_indexKey u hh.symm),
      getItem_removeItem_self]
  · rw [hrun, hrem, hfin]
    simp only [CacheManager.getCacheStats, getCacheIndex_setIndex]
    simp [hlen]
  · rw [hrun, hrem, hfin]
    simp [CacheManager.getCacheStats, getCacheIndex_setIndex]
  · rw [hrun, hrem, hfin]
    simp only [getCacheIndex_setIndex]
    exact hrest

/-- Witness for C5: a concrete expired entry is removed by the read. -/
theorem lazy_expiry_on_read_witness :
    (CacheManager.getCachedResource 3600001 "u"
      [("cache_resource_117", .entryVal ⟨"u", "hello", 0, 3600000, "text/html", 5⟩),
       ("cache_cache_index", .indexVal ⟨5, [⟨"u", 5, 0⟩]⟩)]).1 = none :=
  (lazy_expiry_on_read 3600001 "u"
    [("cache_resource_117", .entryVal ⟨"u", "hello", 0, 3600000, "text/html", 5⟩),
     ("cache_cache_index", .indexVal ⟨5, [⟨"u", 5, 0⟩]⟩)]
    ⟨"u", "hello", 0, 3600000, "text/html", 5⟩ ⟨"u", 5, 0⟩ []
    (by decide) (by decide) (by decide) (by decide)).1

set_option maxRecDepth 400000 in
/-- C6: the URL-to-storage-key function is not injective — the distinct URLs
"https://x/Aa" and "https://x/BB" collide (the rolling hash is 31-based, so
"Aa" and "BB" produce the same 32-bit value). -/
theorem getCacheKey_collision :
    CacheManager.getCacheKey "https://x/Aa" = CacheManager.getCacheKey "https://x/BB" ∧
    "https://x/Aa" ≠ "https://x/BB" := by decide

/-- C8: `getCacheStats` on an empty cache (index record absent, or present
with zero entries and zero total) is well defined: zero totals and the
`Infinity`/`-Infinity` sentinels JS `Math.min()`/`Math.max()` return on empty
input — never an exception or NaN (the model's number type has no NaN). -/
theorem stats_empty_cache (s : Store)
    (h : CacheManager.getCacheIndex s = ⟨0, []⟩) :
    CacheManager.getCacheStats ([] : Store) = ⟨0, 0, .posInf, .negInf⟩ ∧
    CacheManager.getCacheStats s = ⟨0, 0, .posInf, .negInf⟩ := by
  constructor
  · rfl
  · simp [CacheManager.getCacheStats, h, CacheManager.jsMin, CacheManager.jsMax]

/-- Witness for C8: a store holding an explicit empty index. -/
theorem stats_empty_cache_witness :
    CacheManager.getCacheStats [("cache_cache_index", .indexVal ⟨0, []⟩)] =
      ⟨0, 0, .posInf, .negInf⟩ :=
  (stats_empty_cache [("cache_cache_index", .indexVal ⟨0, []⟩)] (by decide)).2

theorem jsStartsWith_append (p x : String) : jsStartsWith (p ++ x) p = true := by
  rw [jsStartsWith, String.data_append]
  induction p.data with
  | nil => rfl
  | cons c cs ih => simpa [hasPrefixCL] using ih

/-- C9: after `clearCache`, every URL reads back null and the reported size is
0, while every key outside the cache's fixed prefix namespace is untouched. -/
theorem clear_cache_frame (s : Store) (now : Int) (u k : String) :
    (CacheManager.getCachedResource now u (CacheManager.clearCache s)).1 = none ∧
    CacheManager.getCacheSize (CacheManager.clearCache s) = 0 ∧
    (jsStartsWith k StorageService.cachePref = false →
      getItem k (CacheManager.clearCache s) = getItem k s) := by
  refine ⟨?_, ?_, ?_⟩
  · have hnone : CacheManager.getEntryData (CacheManager.getCacheKey u)
        (CacheManager.clearCache s) = none := by
      simp only [CacheManager.getEntryData, StorageService.getCacheData,
        CacheManager.clearCache, StorageService.removeCacheData]
      rw [getItem_removeItem_ne _ _ _ (Ne.symm (entryKey_ne_indexKey u))]
      rw [StorageService.clearAllCacheData,
        getItem_filter_of_dropped _ _ _ (fun v => by simp [jsStartsWith_append])]
    simp [CacheManager.getCachedResource, hnone]
  · simp only [CacheManager.getCacheSize, CacheManager.getCacheIndex,
      StorageService.getCacheData, CacheManager.clearCache, StorageService.removeCacheData]
    rw [getItem_removeItem_self]
  · intro hk
    simp only [CacheManager.clearCache, StorageService.removeCacheData]
    have hne : StorageService.cachePref ++ CacheManager.CACHE_INDEX_KEY ≠ k := by
      intro hh
      rw [← hh, jsStartsWith_append] at hk
      exact Bool.true_eq_false.mp hk
    rw [getItem_removeItem_ne _ _ _ hne]
    rw [StorageService.clearAllCacheData,
      getItem_filter_of_key _ _ _ (fun v => by simp [hk])]

/-- Witness for C9: clearing a store with an unrelated first-time-user flag. -/
theorem clear_cache_frame_witness :
    (CacheManager.getCachedResource 0 "u"
      (CacheManager.clearCache
        [("isFirstTimeUser", .rawVal "true"),
         ("cache_resource_117", .entryVal ⟨"u", "hello", 0, 3600000, "text/html", 5⟩),
         ("cache_cache_index", .indexVal ⟨5, [⟨"u", 5, 0⟩]⟩)])).1 = none ∧
    getItem "isFirstTimeUser"
      (CacheManager.clearCache
        [("isFirstTimeUser", .rawVal "true"),
         ("cache_resource_117", .entryVal ⟨"u", "hello", 0, 3600000, "text/html", 5⟩),
         ("cache_cache_index", .indexVal ⟨5, [⟨"u", 5, 0⟩]⟩)]) =
      getItem "isFirstTimeUser"
        [("isFirstTimeUser", .rawVal "true"),
         ("cache_resource_117", .entryVal ⟨"u", "hello", 0, 3600000, "text/html", 5⟩),
         ("cache_cache_index", .indexVal ⟨5, [⟨"u", 5, 0⟩]⟩)] :=
  ⟨(clear_cache_frame _ 0 "u" "isFirstTimeUser").1,
   (clear_cache_frame _ 0 "u" "isFirstTimeUser").2.2 (by decide)⟩

/-- C10: `removeCachedResource` on a URL whose backing entry is absent leaves
the store — including any orphaned index record for that URL and its
contribution to `totalSize` — entirely unchanged. -/
theorem remove_absent_noop (u : String) (s : Store)
    (h : getItem (StorageService.cachePref ++ CacheManager.getCacheKey u) s = none) :
    CacheManager.removeCachedResource u s = s := by
  simp only [CacheManager.removeCachedResource, CacheManager.getEntryData,
    StorageService.getCacheData, h]

/-- Witness for C10: an orphaned index record (no backing entry) survives. -/
theorem remove_absent_noop_witness :
    CacheManager.removeCachedResource "v" [("cache_cache_index", .indexVal ⟨7, [⟨"v", 7, 3⟩]⟩)] =
      [("cache_cache_index", .indexVal ⟨7, [⟨"v", 7, 3⟩]⟩)] :=
  remove_absent_noop "v" _ (by decide)

theorem handleOfflineLoad_spec (now : Int) (st : OrchState) (s : Store) :
    (handleOfflineLoad now st s).1.isOnline = st.isOnline ∧
    (handleOfflineLoad now st s).1.showOfflineMessage = true ∧
    (handleOfflineLoad now st s).1.cacheReads = st.cacheReads ++ [PORTFOLIO_URL] := by
  simp only [handleOfflineLoad]
  cases (CacheManager.getCachedResource now PORTFOLIO_URL s).1 <;> simp

/-- C7: from the ONLINE state, a connectivity callback reporting not-online
(while the environment's fresh query also reports offline) moves the screen to
OFFLINE, shows the offline message, and performs exactly one
`getCachedResource` read of the portfolio URL (triggered by the re-run of the
connectivity effect, whose dependency array contains `isOnline`); a second
not-online callback leaves the state and store completely unchanged —
in particular it performs no further cache read. -/
theorem offline_transition_idempotent (st : OrchState) (s : Store) (ns ns' : NetworkStateM)
    (now now' : Int) (hon : st.isOnline = true) (hoff : onlineOf ns = false)
    (hoff' : onlineOf ns' = false) :
    (networkEvent false now ns st s).1.isOnline = false ∧
    (networkEvent false now ns st s).1.showOfflineMessage = true ∧
    (networkEvent false now ns st s).1.cacheReads = st.cacheReads ++ [PORTFOLIO_URL] ∧
    networkEvent false now' ns' (networkEvent false now ns st s).1
      (networkEvent false now ns st s).2 = networkEvent false now ns st s := by
  obtain ⟨o, m, w, cr⟩ := st
  simp only [OrchState.isOnline] at hon
  subst hon
  have h1 : networkEvent false now ns ⟨true, m, w, cr⟩ s =
      handleOfflineLoad now ⟨false, true, w, cr⟩ s := by
    simp [networkEvent, listenerStep, checkInitialConnectivity, hoff]
  rw [h1]
  simp only [handleOfflineLoad]
  cases (CacheManager.getCachedResource now PORTFOLIO_URL s).1 with
  | none =>
      refine ⟨rfl, rfl, rfl, ?_⟩
      simp [networkEvent, listenerStep, hoff']
  | some content =>
      refine ⟨rfl, rfl, rfl, ?_⟩
      simp [networkEvent, listenerStep, hoff']

/-- Witness for C7 at a concrete offline callback. -/
theorem offline_transition_idempotent_witness :
    (networkEvent false 0 ⟨false, some false, "none"⟩ ⟨true, false, .live, []⟩ []).1.cacheReads =
      [] ++ [PORTFOLIO_URL] :=
  (offline_transition_idempotent ⟨true, false, .live, []⟩ [] ⟨false, some false, "none"⟩
    ⟨false, some false, "none"⟩ 0 0 rfl (by decide) (by decide)).2.2.1

/-! ## Reachable-state invariant for the size/index bookkeeping (C3) -/

theorem getEntryData_some_iff (k : String) (s : Store) (e : CacheEntry) :
    CacheManager.getEntryData k s = some e ↔
      getItem (StorageService.cachePref ++ k) s = some (.entryVal e) := by
  simp only [CacheManager.getEntryData, StorageService.getCacheData]
  cases h : getItem (StorageService.cachePref ++ k) s with
  | none => simp
  | some v => cases v <;> simp

theorem getItem_removeItem_some (k k' : String) (s : Store) (v : StoreVal)
    (h : getItem k (removeItem k' s) = some v) : getItem k s = some v := by
  by_cases hk : k' = k
  · rw [hk, getItem_removeItem_self] at h; exact absurd h (by simp)
  · rwa [getItem_removeItem_ne _ _ _ hk] at h

theorem getItem_removeKeysStore_some (k : String) (l : List IndexEntry) (s : Store)
    (v : StoreVal) (h : getItem k (removeKeysStore l s) = some v) : getItem k s = some v := by
  induction l generalizing s with
  | nil => exact h
  | cons e rest ih =>
      rw [removeKeysStore_cons] at h
      exact getItem_removeItem_some _ _ _ _ (ih _ h)

theorem getEntryData_setIndex_some (k : String) (i : CacheIndex) (X : Store)
    (e : CacheEntry)
    (h : CacheManager.getEntryData k
      (StorageService.setCacheData CacheManager.CACHE_INDEX_KEY (.indexVal i) X) = some e) :
    CacheManager.getEntryData k X = some e := by
  rw [getEntryData_some_iff] at h ⊢
  by_cases hk : StorageService.cachePref ++ k =
      StorageService.cachePref ++ CacheManager.CACHE_INDEX_KEY
  · rw [StorageService.setCacheData, hk, getItem_setItem_self] at h
    exact absurd h (by simp)
  · rwa [StorageService.setCacheData, getItem_setItem_ne _ _ _ _ (Ne.symm hk)] at h

theorem getEntryData_setEntry_cases (k k0 : String) (en : CacheEntry) (X : Store)
    (e : CacheEntry)
    (h : CacheManager.getEntryData k
      (StorageService.setCacheData k0 (.entryVal en) X) = some e) :
    (k = k0 ∧ e = en) ∨ CacheManager.getEntryData k X = some e := by
  rw [getEntryData_some_iff] at h
  by_cases hk : StorageService.cachePref ++ k = StorageService.cachePref ++ k0
  · rw [StorageService.setCacheData, hk, getItem_setItem_self] at h
    left
    refine ⟨strAppend_left_cancel hk, ?_⟩
    simpa using h.symm
  · right
    rw [getEntryData_some_iff]
    rwa [StorageService.setCacheData, getItem_setItem_ne _ _ _ _ (Ne.symm hk)] at h

theorem getCacheIndex_clearCache (s : Store) :
    CacheManager.getCacheIndex (CacheManager.clearCache s) = ⟨0, []⟩ := by
  simp only [CacheManager.getCacheIndex, StorageService.getCacheData,
    CacheManager.clearCache, StorageService.removeCacheData]
  rw [getItem_removeItem_self]

theorem getEntryData_clearCache (k : String) (s : Store) :
    CacheManager.getEntryData k (CacheManager.clearCache s) = none := by
  simp only [CacheManager.getEntryData, StorageService.getCacheData,
    CacheManager.clearCache, StorageService.removeCacheData]
  by_cases hk : StorageService.cachePref ++ CacheManager.CACHE_INDEX_KEY =
      StorageService.cachePref ++ k
  · rw [← hk, getItem_removeItem_self]
  · rw [getItem_removeItem_ne _ _ _ hk]
    rw [StorageService.clearAllCacheData,
      getItem_filter_of_dropped _ _ _ (fun v => by simp [jsStartsWith_append])]

theorem getEntryData_set_ne (k k0 : String) (v : StoreVal) (X : Store)
    (h : StorageService.cachePref ++ k0 ≠ StorageService.cachePref ++ k) :
    CacheManager.getEntryData k (StorageService.setCacheData k0 v X) =
      CacheManager.getEntryData k X := by
  simp only [CacheManager.getEntryData, StorageService.getCacheData, StorageService.setCacheData]
  rw [getItem_setItem_ne _ _ _ _ h]

theorem CacheWF_enforce (U : List String) (hinj : KeyInj U) (s : Store)
    (hwf : CacheWF U s) : CacheWF U (CacheManager.enforceCacheSizeLimit s) := by
  obtain ⟨hc, hnd, hU, hback, hkey⟩ := hwf
  by_cases hle : (CacheManager.getCacheIndex s).totalSize ≤ CacheManager.MAX_CACHE_SIZE
  · rw [enforce_of_le s hle]; exact ⟨hc, hnd, hU, hback, hkey⟩
  · rw [enforce_of_gt s (lt_of_not_le hle)]
    set l := CacheManager.sortByTs (CacheManager.getCacheIndex s).entries with hl
    set n := evictCount (CacheManager.getCacheIndex s).totalSize l with hn
    have hperm : l.Perm (CacheManager.getCacheIndex s).entries := sortByTs_perm _
    have hndl : (l.map (·.url)).Nodup := ((hperm.map (·.url)).nodup_iff).mpr hnd
    have hdisj : ∀ a ∈ l.take n, ∀ b ∈ l.drop n, a.url ≠ b.url := by
      intro a ha b hb hab
      have h1 : ((l.take n).map (·.url) ++ (l.drop n).map (·.url)).Nodup := by
        rw [← List.map_append, List.take_append_drop]
        exact hndl
      exact (List.disjoint_of_nodup_append h1)
        (List.mem_map_of_mem _ ha) (hab ▸ List.mem_map_of_mem (·.url) hb)
    refine ⟨?_, ?_, ?_, ?_, ?_⟩
    · rw [getCacheIndex_setIndex]
      have h1 : (CacheManager.getCacheIndex s).totalSize = sumSizes l := by
        rw [hc]; exact (sumSizes_perm _ _ hperm).symm
      have h2 : sumSizes l = sumSizes (l.take n) + sumSizes (l.drop n) := by
        rw [← sumSizes_append, List.take_append_drop]
      simp only [consistentIndex]
      rw [h1, h2]
      ring
    · rw [getCacheIndex_setIndex]
      have : ((l.drop n).map (·.url)) = (l.map (·.url)).drop n := List.map_drop _ l n
      rw [this]
      exact hndl.sublist (List.drop_sublist _ _)
    · rw [getCacheIndex_setIndex]
      intro r hr
      exact hU r (hperm.mem_iff.mp (List.drop_subset _ _ hr))
    · rw [getCacheIndex_setIndex]
      intro r hr
      obtain ⟨e, he, heu, hes⟩ := hback r (hperm.mem_iff.mp (List.drop_subset _ _ hr))
      have hkeys : ∀ f ∈ l.take n,
          StorageService.cachePref ++ CacheManager.getCacheKey f.url ≠
            StorageService.cachePref ++ CacheManager.getCacheKey r.url := by
        intro f hf hh
        have hfr : f.url ≠ r.url := hdisj f hf r hr
        have hfU : f.url ∈ U := hU f (hperm.mem_iff.mp (List.take_subset _ _ hf))
        have hrU : r.url ∈ U := hU r (hperm.mem_iff.mp (List.drop_subset _ _ hr))
        exact hfr (hinj f.url hfU r.url hrU (strAppend_left_cancel hh))
      refine ⟨e, ?_, heu, hes⟩
      rw [getEntryData_setIndex]
      rw [getEntryData_some_iff, getItem_removeKeysStore_ne _ _ _ hkeys,
        ← getEntryData_some_iff]
      exact he
    · intro k0 e h0
      have h1 := getEntryData_setIndex_some _ _ _ _ h0
      rw [getEntryData_some_iff] at h1
      have h2 := getItem_removeKeysStore_some _ _ _ _ h1
      rw [← getEntryData_some_iff] at h2
      exact hkey k0 e h2

theorem CacheWF_removeCachedResource (U : List String) (hinj : KeyInj U) (u : String)
    (hu : u ∈ U) (s : Store) (hwf : CacheWF U s) :
    CacheWF U (CacheManager.removeCachedResource u s) := by
  obtain ⟨hc, hnd, hU, hback, hkey⟩ := hwf
  cases he : CacheManager.getEntryData (CacheManager.getCacheKey u) s with
  | none =>
      simp only [CacheManager.removeCachedResource, he]
      exact ⟨hc, hnd, hU, hback, hkey⟩
  | some e =>
      obtain ⟨heU, hek⟩ := hkey _ _ he
      have heu : e.url = u := (hinj u hu e.url heU hek).symm
      have hrem : CacheManager.removeCachedResource u s =
          CacheManager.removeFromCacheIndex u e.size
            (StorageService.removeCacheData (CacheManager.getCacheKey u) s) := by
        simp only [CacheManager.removeCachedResource, he]
      rw [hrem]
      have hidx := getCacheIndex_removeEntry u s
      have hne_of_ne : ∀ w, w ∈ U → w ≠ u →
          StorageService.cachePref ++ CacheManager.getCacheKey u ≠
            StorageService.cachePref ++ CacheManager.getCacheKey w := by
        intro w hw hwu hh
        exact hwu ((hinj w hw u hu (strAppend_left_cancel hh).symm))
      cases hr : CacheManager.removeFirstRecord u
          (CacheManager.getCacheIndex s).entries with
      | none =>
          have hfin : CacheManager.removeFromCacheIndex u e.size
              (StorageService.removeCacheData (CacheManager.getCacheKey u) s) =
              StorageService.removeCacheData (CacheManager.getCacheKey u) s := by
            simp only [CacheManager.removeFromCacheIndex, hidx, hr]
          rw [hfin]
          have hnou := removeFirstRecord_none u _ hr
          refine ⟨by rwa [hidx], by rwa [hidx], by rw [hidx]; exact hU, ?_, ?_⟩
          · rw [hidx]
            intro r hrm
            obtain ⟨e2, he2, he2u, he2s⟩ := hback r hrm
            refine ⟨e2, ?_, he2u, he2s⟩
            simp only [CacheManager.getEntryData, StorageService.getCacheData,
              StorageService.removeCacheData] at he2 ⊢
            rwa [getItem_removeItem_ne _ _ _ (hne_of_ne r.url (hU r hrm) (hnou r hrm))]
          · intro k0 e0 h0
            rw [getEntryData_some_iff] at h0
            have h1 := getItem_removeItem_some _ _ _ _ h0
            rw [← getEntryData_some_iff] at h1
            exact hkey k0 e0 h1
      | some pr =>
          obtain ⟨r0, rest⟩ := pr
          obtain ⟨hperm, hr0u⟩ := removeFirstRecord_perm u _ _ _ hr
          have hfin : CacheManager.removeFromCacheIndex u e.size
              (StorageService.removeCacheData (CacheManager.getCacheKey u) s) =
              StorageService.setCacheData CacheManager.CACHE_INDEX_KEY
                (.indexVal ⟨(CacheManager.getCacheIndex s).totalSize - e.size, rest⟩)
                (StorageService.removeCacheData (CacheManager.getCacheKey u) s) := by
            simp only [CacheManager.removeFromCacheIndex, hidx, hr]
          rw [hfin]
          obtain ⟨e2, he2, he2u, he2s⟩ := hback r0 (hperm.mem_iff.mpr (by simp))
          have he2e : e2 = e := by
            rw [hr0u] at he2
            rw [he] at he2
            exact (Option.some.injEq .. ▸ he2).symm
          have hsz : (e.size : Int) = r0.size := by rw [← he2e, he2s]
          have hndu : ((r0 :: rest).map (·.url)).Nodup :=
            ((hperm.map (·.url)).nodup_iff).mp hnd
          have hnotu : ∀ f ∈ rest, f.url ≠ u := by
            intro f hf hfu
            simp only [List.map_cons, List.nodup_cons] at hndu
            exact hndu.1 (hr0u ▸ hfu ▸ List.mem_map_of_mem (·.url) hf)
          refine ⟨?_, ?_, ?_, ?_, ?_⟩
          · rw [getCacheIndex_setIndex]
            simp only [consistentIndex]
            have h1 : sumSizes (CacheManager.getCacheIndex s).entries =
                sumSizes (r0 :: rest) := sumSizes_perm _ _ hperm
            rw [hc, h1, sumSizes_cons, hsz]
            ring
          · rw [getCacheIndex_setIndex]
            simp only [List.map_cons, List.nodup_cons] at hndu
            exact hndu.2
          · rw [getCacheIndex_setIndex]
            intro r hrm
            exact hU r (hperm.mem_iff.mpr (by simp [hrm]))
          · rw [getCacheIndex_setIndex]
            intro r hrm
            obtain ⟨e3, he3, he3u, he3s⟩ := hback r (hperm.mem_iff.mpr (by simp [hrm]))
            refine ⟨e3, ?_, he3u, he3s⟩
            rw [getEntryData_setIndex]
            simp only [CacheManager.getEntryData, StorageService.getCacheData,
              StorageService.removeCacheData] at he3 ⊢
            rwa [getItem_removeItem_ne _ _ _
              (hne_of_ne r.url (hU r (hperm.mem_iff.mpr (by simp [hrm]))) (hnotu r hrm))]
          · intro k0 e0 h0
            have h1 := getEntryData_setIndex_some _ _ _ _ h0
            rw [getEntryData_some_iff] at h1
            have h2 := getItem_removeItem_some _ _ _ _ h1
            rw [← getEntryData_some_iff] at h2
            exact hkey k0 e0 h2

theorem CacheWF_getCachedResource (U : List String) (hinj : KeyInj U) (now : Int)
    (u : String) (hu : u ∈ U) (s : Store) (hwf : CacheWF U s) :
    CacheWF U (CacheManager.getCachedResource now u s).2 := by
  cases he : CacheManager.getEntryData (CacheManager.getCacheKey u) s with
  | none => simp only [CacheManager.getCachedResource, he]; exact hwf
  | some e =>
      simp only [CacheManager.getCachedResource, he]
      by_cases hx : now > e.expiresAt
      · rw [if_pos hx]
        exact CacheWF_removeCachedResource U hinj u hu s hwf
      · rw [if_neg hx]
        exact hwf

theorem CacheWF_cacheResource (U : List String) (hinj : KeyInj U) (now : Int)
    (u d ct : String) (hu : u ∈ U) (s : Store) (hwf : CacheWF U s) :
    CacheWF U (CacheManager.cacheResource now u d ct s) := by
  obtain ⟨hc, hnd, hU, hback, hkey⟩ := hwf
  have hres : CacheManager.cacheResource now u d ct s =
      CacheManager.enforceCacheSizeLimit
        (CacheManager.updateCacheIndex now u d.length
          (StorageService.setCacheData (CacheManager.getCacheKey u)
            (.entryVal ⟨u, d, now, now + CacheManager.getExpirationTime ct, ct, d.length⟩)
            s)) := rfl
  rw [hres]
  apply CacheWF_enforce U hinj
  have hIdx1 : CacheManager.getCacheIndex
      (StorageService.setCacheData (CacheManager.getCacheKey u)
        (.entryVal ⟨u, d, now, now + CacheManager.getExpirationTime ct, ct, d.length⟩) s) =
      CacheManager.getCacheIndex s := getCacheIndex_setEntry u _ s
  obtain ⟨i1, hupd, hconsf, hsub, hnotu, hnd1⟩ :=
    updateCacheIndex_eq now u d.length
      (StorageService.setCacheData (CacheManager.getCacheKey u)
        (.entryVal ⟨u, d, now, now + CacheManager.getExpirationTime ct, ct, d.length⟩) s)
  rw [hIdx1] at hconsf hsub hnotu hnd1
  rw [hupd]
  have hne_of_ne : ∀ w, w ∈ U → w ≠ u →
      StorageService.cachePref ++ CacheManager.getCacheKey u ≠
        StorageService.cachePref ++ CacheManager.getCacheKey w := by
    intro w hw hwu hh
    exact hwu ((hinj w hw u hu (strAppend_left_cancel hh).symm))
  refine ⟨?_, ?_, ?_, ?_, ?_⟩
  · rw [getCacheIndex_setIndex]
    simp only [consistentIndex]
    have h1 := hconsf hc
    simp only [consistentIndex] at h1
    rw [sumSizes_append, ← h1, sumSizes_cons, sumSizes_nil]
    ring
  · rw [getCacheIndex_setIndex]
    simp only [List.map_append, List.map_cons, List.map_nil]
    rw [List.nodup_append]
    refine ⟨hnd1 hnd, by simp, ?_⟩
    intro a ha hb
    obtain ⟨r, hr, hru⟩ := List.mem_map.mp ha
    rcases List.mem_singleton.mp hb with rfl
    exact (hnotu hnd r hr) hru
  · rw [getCacheIndex_setIndex]
    intro r hrm
    rcases List.mem_append.mp hrm with h1 | h1
    · exact hU r (hsub r h1)
    · rcases List.mem_singleton.mp h1 with rfl
      exact hu
  · rw [getCacheIndex_setIndex]
    intro r hrm
    rcases List.mem_append.mp hrm with h1 | h1
    · obtain ⟨e3, he3, he3u, he3s⟩ := hback r (hsub r h1)
      refine ⟨e3, ?_, he3u, he3s⟩
      rw [getEntryData_setIndex,
        getEntryData_set_ne _ _ _ _ (hne_of_ne r.url (hU r (hsub r h1)) (hnotu hnd r h1))]
      exact he3
    · rcases List.mem_singleton.mp h1 with rfl
      refine ⟨⟨u, d, now, now + CacheManager.getExpirationTime ct, ct, d.length⟩, ?_, rfl, rfl⟩
      rw [getEntryData_setIndex]
      exact getEntryData_setEntry_self u _ _
  · intro k0 e0 h0
    have h1 := getEntryData_setIndex_some _ _ _ _ h0
    rcases getEntryData_setEntry_cases _ _ _ _ _ h1 with ⟨rfl, rfl⟩ | h2
    · exact ⟨hu, rfl⟩
    · exact hkey k0 e0 h2

theorem CacheWF_clearCache (U : List String) (s : Store) :
    CacheWF U (CacheManager.clearCache s) := by
  refine ⟨?_, ?_, ?_, ?_, ?_⟩
  · rw [getCacheIndex_clearCache]; rfl
  · rw [getCacheIndex_clearCache]; simp
  · rw [getCacheIndex_clearCache]; simp
  · rw [getCacheIndex_clearCache]; simp
  · intro k0 e0 h0
    rw [getEntryData_clearCache] at h0
    exact absurd h0 (by simp)

theorem CacheWF_nil (U : List String) : CacheWF U [] := by
  refine ⟨rfl, ?_, ?_, ?_, ?_⟩
  · simp [CacheManager.getCacheIndex, StorageService.getCacheData, getItem]
  · simp [CacheManager.getCacheIndex, StorageService.getCacheData, getItem]
  · simp [CacheManager.getCacheIndex, StorageService.getCacheData, getItem]
  · intro k0 e0 h0
    simp [CacheManager.getEntryData, StorageService.getCacheData, getItem] at h0

theorem CacheWF_runOp (U : List String) (hinj : KeyInj U) (op : COp) (s : Store)
    (hwf : CacheWF U s) (hop : ∀ u, opUrl op = some u → u ∈ U) :
    CacheWF U (runOp op s) := by
  cases op with
  | cacheR now u d ct => exact CacheWF_cacheResource U hinj now u d ct (hop u rfl) s hwf
  | getR now u => exact CacheWF_getCachedResource U hinj now u (hop u rfl) s hwf
  | removeR u => exact CacheWF_removeCachedResource U hinj u (hop u rfl) s hwf
  | clearR => exact CacheWF_clearCache U _

theorem CacheWF_runOps (U : List String) (hinj : KeyInj U) (ops : List COp) :
    ∀ s : Store, CacheWF U s → (∀ op ∈ ops, ∀ u, opUrl op = some u → u ∈ U) →
      CacheWF U (runOps ops s) := by
  induction ops with
  | nil => intro s hwf _; exact hwf
  | cons op rest ih =>
      intro s hwf hops
      have h1 : runOps (op :: rest) s = runOps rest (runOp op s) := rfl
      rw [h1]
      exact ih _ (CacheWF_runOp U hinj op s hwf (hops op (by simp)))
        (fun o ho => hops o (by simp [ho]))

/-- C3 (amended): starting from the empty store, after any sequence of
`cacheResource` / `getCachedResource` / `removeCachedResource` / `clearCache`
operations (including the evictions they trigger) whose URLs are free of
storage-key collisions, `getCacheSize()` equals the sum of the `size` fields
of the records currently in the cache index, and every such record is backed
by a stored (non-evicted) entry of matching URL and size. Expired entries
that have not yet been lazily removed still count. -/
theorem cache_size_invariant (ops : List COp) (hinj : KeyInj (urlsOf ops)) :
    CacheManager.getCacheSize (runOps ops []) =
      sumSizes (CacheManager.getCacheIndex (runOps ops [])).entries ∧
    ∀ r ∈ (CacheManager.getCacheIndex (runOps ops [])).entries,
      ∃ e, CacheManager.getEntryData (CacheManager.getCacheKey r.url) (runOps ops []) =
          some e ∧ e.url = r.url ∧ e.size = r.size := by
  have hops : ∀ op ∈ ops, ∀ u, opUrl op = some u → u ∈ urlsOf ops := by
    intro op hop u hu
    exact List.mem_filterMap.mpr ⟨op, hop, hu⟩
  have hwf := CacheWF_runOps (urlsOf ops) hinj ops [] (CacheWF_nil _) hops
  exact ⟨hwf.1, hwf.2.2.2.1⟩

set_option maxRecDepth 400000 in
/-- C3 counterexample: cache one 10-byte HTML entry at time 0; at time
1 h + 1 ms the entry is expired and unretrievable (`getCachedResource`
returns null), yet `getCacheSize()` still reports 10, not the sum (0) over
currently retrievable entries. -/
theorem cache_size_invariant_counterexample :
    CacheManager.getCacheSize (runOps [.cacheR 0 "u" "AAAAAAAAAA" "text/html"] []) = 10 ∧
    (CacheManager.getCachedResource 3600001 "u"
      (runOps [.cacheR 0 "u" "AAAAAAAAAA" "text/html"] [])).1 = none := by decide

set_option maxRecDepth 400000 in
/-- Witness for C3 (amended) on a concrete two-operation run. -/
theorem cache_size_invariant_witness :
    CacheManager.getCacheSize (runOps [.cacheR 0 "u" "hi" "text/html", .getR 5 "u"] []) =
      sumSizes (CacheManager.getCacheIndex
        (runOps [.cacheR 0 "u" "hi" "text/html", .getR 5 "u"] [])).entries :=
  (cache_size_invariant [.cacheR 0 "u" "hi" "text/html", .getR 5 "u"]
    (by unfold KeyInj; decide)).1

end Umarthedev
